import Mathlib

/-!
Verification of the git-overview repository-discovery and status-aggregation
engine against its design specification.

The repository's source tree ships the packaging script `setup.py`; the core
engine (Repository Locator, Status Prober, Aggregation Engine) is modelled
here from the specification's component contracts (spec §3–§5).  The
`SetupPy` namespace embeds `setup.py` itself.
-/

namespace GitOverview

/-- Modelled from the spec: the core engine module is absent from the shipped
sources, so probe error reasons follow spec §4.2 — a query that times out or
exits non-zero produces an error-with-reason outcome from this enumeration. -/
inductive ErrorReason where
  | timeout
  | notARepository
  | permissionDenied
  | gitNotFound
  | unknown
deriving DecidableEq, Repr

/-- Modelled from the spec: probe outcome recorded in a `StatusRecord`
(spec §3) — success or error-with-reason; the implementing module is absent
from the shipped sources. -/
inductive ProbeOutcome where
  | success
  | errorWithReason (reason : ErrorReason)
deriving DecidableEq, Repr

/-- Modelled from the spec: current branch (spec §3) — a branch name, or a
sentinel meaning detached HEAD carrying the short commit hash instead. -/
inductive BranchState where
  | onBranch (name : String)
  | detachedHead (shortHash : String)
deriving DecidableEq, Repr

/-- Modelled from the spec: working-tree state as a set of flags (spec §3). -/
structure WorktreeFlags where
  hasStagedChanges : Bool
  hasUnstagedChanges : Bool
  hasUntrackedFiles : Bool
  hasConflicts : Bool
deriving DecidableEq, Repr

/-- All four dirtiness flags false. -/
def WorktreeFlags.clean : WorktreeFlags :=
  { hasStagedChanges := false
    hasUnstagedChanges := false
    hasUntrackedFiles := false
    hasConflicts := false }

/-- Modelled from the spec: one status record per repository (spec §3).
`aheadBehind` is `none` when no upstream tracking branch is configured (the
counts are undefined then). -/
structure StatusRecord where
  path : String
  branch : BranchState
  upstream : Option String
  aheadBehind : Option (Nat × Nat)
  flags : WorktreeFlags
  outcome : ProbeOutcome
deriving DecidableEq, Repr

/-- Modelled from the spec: comparison used by the final sort — default key
is the repository path, lexicographic on the canonicalized path string
(spec §4.3). -/
def recordLE (a b : StatusRecord) : Bool :=
  decide (a.path ≤ b.path)

/-- Modelled from the spec: the Aggregation Engine's final ordering step
(spec §4.3) — sort the collected records by the path key. -/
def sortRecords (rs : List StatusRecord) : List StatusRecord :=
  rs.mergeSort recordLE

/-! ### Aggregation Engine scheduler

Modelled from the spec (§4.3, §5): a bounded worker pool dispatches one
Status Prober invocation per repository in discovery order; completion order
is unconstrained, and every completion appends its record to the collection
buffer. -/

/-- Modelled from the spec: the Aggregation Engine's run state — repositories
not yet dispatched (in discovery order), probes currently in flight, and the
result-collection buffer. -/
structure SchedState where
  pending : List String
  inFlight : List String
  collected : List StatusRecord
deriving DecidableEq, Repr

/-- Modelled from the spec: one scheduling event of the Aggregation Engine.
`dispatch` starts the next pending probe, allowed only while fewer than
`limit` probes are in flight; `complete` finishes any in-flight probe (in any
order) and appends its record — success or error alike — to the buffer. -/
inductive SchedStep (limit : Nat) (probe : String → StatusRecord) :
    SchedState → SchedState → Prop where
  | dispatch (p : String) (rest : List String) (s : SchedState) :
      s.pending = p :: rest → s.inFlight.length < limit →
      SchedStep limit probe s ⟨rest, p :: s.inFlight, s.collected⟩
  | complete (p : String) (s : SchedState) :
      p ∈ s.inFlight →
      SchedStep limit probe s
        ⟨s.pending, s.inFlight.erase p, probe p :: s.collected⟩

/-- Reflexive-transitive closure of `SchedStep`: the states the Aggregation
Engine can reach from a given state. -/
inductive SchedReach (limit : Nat) (probe : String → StatusRecord) :
    SchedState → SchedState → Prop where
  | refl (s : SchedState) : SchedReach limit probe s s
  | tail {s₁ s₂ s₃ : SchedState} : SchedReach limit probe s₁ s₂ →
      SchedStep limit probe s₂ s₃ → SchedReach limit probe s₁ s₃

/-- Modelled from the spec: the engine's initial state for a discovered
path sequence — everything pending, nothing in flight, empty buffer. -/
def initState (paths : List String) : SchedState :=
  { pending := paths, inFlight := [], collected := [] }

/-- Helper for `canonicalDedup`: keep the first path of each canonical
equivalence class, carrying the set of canonical paths already seen. -/
def dedupGo (canon : String → String) (seen : List String) :
    List String → List String
  | [] => []
  | p :: ps =>
    if canon p ∈ seen then dedupGo canon seen ps
    else p :: dedupGo canon (canon p :: seen) ps

/-- Modelled from the spec: RepositoryPath uniqueness is enforced by
canonicalized absolute path (spec §3) — the discovery phase drops any path
whose canonical form was already seen, so symlink cycles cannot introduce
duplicate entries. -/
def canonicalDedup (canon : String → String) (paths : List String) :
    List String :=
  dedupGo canon [] paths

/-- A concrete total probe function used to instantiate scheduler runs:
every path yields a successful record for that path. -/
def trivialProbe (p : String) : StatusRecord :=
  { path := p, branch := .onBranch "main", upstream := none,
    aheadBehind := none, flags := .clean, outcome := .success }

/-! ### Repository Locator

Modelled from the spec (§4.1): the Locator walks a directory tree, yields a
directory the moment a `.git` entry is found directly inside it and does not
recurse further into it, never follows symlinked directories, prunes excluded
relative paths before entering a subdirectory, and honours a maximum
recursion depth. -/

mutual
/-- Modelled from the spec: a directory tree as seen by the Repository
Locator.  A node is a real directory — name, whether a `.git` entry sits
directly inside it, and its subdirectories — or a symbolic link to a
directory, which the walk never follows (its target string may point
anywhere, including an ancestor, creating a cycle of any depth). -/
inductive FSNode where
  | dir (name : String) (hasGitEntry : Bool) (children : FSForest)
  | symlink (name : String) (target : String)

/-- A list of sibling filesystem nodes. -/
inductive FSForest where
  | nil
  | cons (head : FSNode) (tail : FSForest)
end

/-- Name of a node (last component of its path). -/
def FSNode.name : FSNode → String
  | .dir n _ _ => n
  | .symlink n _ => n

/-- Names of the nodes of a forest. -/
def forestNames : FSForest → List String
  | .nil => []
  | .cons c cs => c.name :: forestNames cs

/-- Modelled from the spec: the recursion-depth test — `none` means
unbounded (the default), `some d` admits directories at depth at most `d`
below the root. -/
def depthOK : Option Nat → Nat → Bool
  | none, _ => true
  | some d, k => k ≤ d

mutual
/-- Modelled from the spec: the Locator's walk from one node.  A symlinked
directory is never followed; a directory with a `.git` entry is yielded as a
repository root and not descended into; otherwise the walk enters its
subdirectories.  `here` is the node's relative path from the root, `depth`
its depth below the root. -/
def walkTree (excl : List (List String)) (maxDepth : Option Nat) :
    FSNode → List String → Nat → List (List String)
  | .symlink _ _, _, _ => []
  | .dir _ hasGit children, here, depth =>
    if hasGit then [here] else walkForest excl maxDepth children here depth

/-- Modelled from the spec: the Locator's walk over the subdirectories of a
directory at relative path `here` and depth `depth`: each child's relative
path is checked against the exclusion set and the depth limit before it is
entered (pruning, not post-filtering). -/
def walkForest (excl : List (List String)) (maxDepth : Option Nat) :
    FSForest → List String → Nat → List (List String)
  | .nil, _, _ => []
  | .cons c cs, here, depth =>
    (if here ++ [c.name] ∈ excl then []
     else if depthOK maxDepth (depth + 1) then
       walkTree excl maxDepth c (here ++ [c.name]) (depth + 1)
     else []) ++ walkForest excl maxDepth cs here depth
end

/-- Modelled from the spec: the Repository Locator — walk the root directory
(relative path `[]`, depth 0) and yield the repository roots found. -/
def locate (excl : List (List String)) (maxDepth : Option Nat)
    (root : FSNode) : List (List String) :=
  walkTree excl maxDepth root [] 0

mutual
/-- All repository roots in a tree: every real directory with a `.git` entry
directly inside it, reachable through real directories only (a symlinked
directory is not part of the tree's own structure). -/
def gitRootsTree : FSNode → List String → List (List String)
  | .symlink _ _, _ => []
  | .dir _ hasGit children, here =>
    (if hasGit then [here] else []) ++ gitRootsForest children here

/-- All repository roots below the nodes of a forest. -/
def gitRootsForest : FSForest → List String → List (List String)
  | .nil, _ => []
  | .cons c cs, here =>
    gitRootsTree c (here ++ [c.name]) ++ gitRootsForest cs here
end

mutual
/-- The directories the Locator's walk actually enters (traverses), in
order: a symlinked directory is never entered; a repository root is entered
but not descended into. -/
def visitedTree (excl : List (List String)) (maxDepth : Option Nat) :
    FSNode → List String → Nat → List (List String)
  | .symlink _ _, _, _ => []
  | .dir _ hasGit children, here, depth =>
    here :: (if hasGit then []
             else visitedForest excl maxDepth children here depth)

/-- The directories the walk enters below the nodes of a forest. -/
def visitedForest (excl : List (List String)) (maxDepth : Option Nat) :
    FSForest → List String → Nat → List (List String)
  | .nil, _, _ => []
  | .cons c cs, here, depth =>
    (if here ++ [c.name] ∈ excl then []
     else if depthOK maxDepth (depth + 1) then
       visitedTree excl maxDepth c (here ++ [c.name]) (depth + 1)
     else []) ++ visitedForest excl maxDepth cs here depth
end

mutual
/-- Relative paths of all symbolic-link nodes anywhere in a tree. -/
def symlinkPathsTree : FSNode → List String → List (List String)
  | .symlink _ _, here => [here]
  | .dir _ _ children, here => symlinkPathsForest children here

/-- Relative paths of all symbolic-link nodes below the nodes of a forest. -/
def symlinkPathsForest : FSForest → List String → List (List String)
  | .nil, _ => []
  | .cons c cs, here =>
    symlinkPathsTree c (here ++ [c.name]) ++ symlinkPathsForest cs here
end

mutual
/-- Well-formedness of a filesystem tree: sibling names are pairwise
distinct at every directory, as on a real filesystem. -/
def treeWF : FSNode → Bool
  | .symlink _ _ => true
  | .dir _ _ children =>
    decide ((forestNames children).Nodup) && forestWF children

/-- Well-formedness of every node of a forest. -/
def forestWF : FSForest → Bool
  | .nil => true
  | .cons c cs => treeWF c && forestWF cs
end

mutual
/-- No repository root anywhere in the tree (through real directories). -/
def treeGitFree : FSNode → Bool
  | .symlink _ _ => true
  | .dir _ hasGit children => !hasGit && forestGitFree children

/-- No repository root anywhere below the nodes of a forest. -/
def forestGitFree : FSForest → Bool
  | .nil => true
  | .cons c cs => treeGitFree c && forestGitFree cs
end

mutual
/-- The tree's repositories are non-overlapping: no repository root has
another repository root strictly below it. -/
def noNested : FSNode → Bool
  | .symlink _ _ => true
  | .dir _ hasGit children =>
    if hasGit then forestGitFree children else forestNoNested children

/-- Non-overlapping repositories below every node of a forest. -/
def forestNoNested : FSForest → Bool
  | .nil => true
  | .cons c cs => noNested c && forestNoNested cs
end

/-- A concrete directory tree used to instantiate the Locator claims: the
root holds a repository `a`, a plain directory `b` containing a repository
`c`, and a symlink `s` aiming back at the root (a cycle if followed). -/
def sampleTree : FSNode :=
  .dir "root" false
    (.cons (.dir "a" true .nil)
      (.cons (.dir "b" false (.cons (.dir "c" true .nil) .nil))
        (.cons (.symlink "s" "/root") .nil)))

/-! ### Status Prober

Modelled from the spec (§4.2): the prober issues a small fixed sequence of
isolated subprocess queries — (a) current branch, (b) configured upstream if
any, (c) ahead/behind counts relative to the upstream, (d) working-tree
dirtiness — each with a bounded timeout; any failure is absorbed into the
record's outcome instead of raising. -/

/-- Modelled from the spec: outcome of one isolated git subprocess query —
parsed output on exit 0, a timeout, or a non-zero exit carrying the stderr
text used for classification. -/
inductive QueryAnswer (α : Type) where
  | ok (value : α)
  | timedOut
  | exitedNonZero (stderrText : String)
deriving DecidableEq, Repr

/-- Whether `pat` occurs as a substring of `s` (for nonempty `pat`). -/
def containsText (s pat : String) : Bool :=
  (s.splitOn pat).length != 1

/-- Modelled from the spec: classification of a failed query's stderr text
into an error reason (spec §4.2/§7) — not-a-repository, permission-denied,
git-not-found, or unknown. -/
def classifyStderr (e : String) : ErrorReason :=
  if containsText e "not a git repository" then .notARepository
  else if containsText e "ermission denied" then .permissionDenied
  else if containsText e "command not found" then .gitNotFound
  else .unknown

/-- The error reason of a query answer, or `none` if it succeeded. -/
def failureReason {α : Type} : QueryAnswer α → Option ErrorReason
  | .ok _ => none
  | .timedOut => some .timeout
  | .exitedNonZero e => some (classifyStderr e)

/-- Modelled from the spec: the answers the subprocess layer gives to the
prober's fixed query sequence for one repository. -/
structure QueryEnv where
  branchQuery : QueryAnswer BranchState
  upstreamQuery : QueryAnswer (Option String)
  countsQuery : QueryAnswer (Nat × Nat)
  statusQuery : QueryAnswer WorktreeFlags
deriving DecidableEq, Repr

/-- Modelled from the spec: the record produced for a repository whose probe
failed — the outcome carries the reason; no branch, upstream or counts are
claimed. -/
def errorRecord (path : String) (r : ErrorReason) : StatusRecord :=
  { path := path, branch := .onBranch "", upstream := none,
    aheadBehind := none, flags := .clean, outcome := .errorWithReason r }

/-- Modelled from the spec: the Status Prober for one RepositoryPath.  It
consults the queries in the fixed order (a) branch, (b) upstream, (c)
ahead/behind (only when an upstream exists), (d) dirtiness; the first
failing query turns into an error-with-reason outcome, and the function is
total — no exception escapes to the caller. -/
def probeWithEnv (env : QueryEnv) (path : String) : StatusRecord :=
  match env.branchQuery with
  | .timedOut => errorRecord path .timeout
  | .exitedNonZero e => errorRecord path (classifyStderr e)
  | .ok br =>
    match env.upstreamQuery with
    | .timedOut => errorRecord path .timeout
    | .exitedNonZero e => errorRecord path (classifyStderr e)
    | .ok none =>
      match env.statusQuery with
      | .timedOut => errorRecord path .timeout
      | .exitedNonZero e => errorRecord path (classifyStderr e)
      | .ok fl =>
        { path := path, branch := br, upstream := none,
          aheadBehind := none, flags := fl, outcome := .success }
    | .ok (some up) =>
      match env.countsQuery with
      | .timedOut => errorRecord path .timeout
      | .exitedNonZero e => errorRecord path (classifyStderr e)
      | .ok ab =>
        match env.statusQuery with
        | .timedOut => errorRecord path .timeout
        | .exitedNonZero e => errorRecord path (classifyStderr e)
        | .ok fl =>
          { path := path, branch := br, upstream := some up,
            aheadBehind := some ab, flags := fl, outcome := .success }

/-- The reason of the first failing query in the prober's consultation
order, or `none` when every consulted query succeeds. -/
def firstFailure (env : QueryEnv) : Option ErrorReason :=
  match env.branchQuery with
  | .timedOut => some .timeout
  | .exitedNonZero e => some (classifyStderr e)
  | .ok _ =>
    match env.upstreamQuery with
    | .timedOut => some .timeout
    | .exitedNonZero e => some (classifyStderr e)
    | .ok none => failureReason env.statusQuery
    | .ok (some _) =>
      match env.countsQuery with
      | .timedOut => some .timeout
      | .exitedNonZero e => some (classifyStderr e)
      | .ok _ => failureReason env.statusQuery

/-- Modelled from the spec: the observable git state of one repository —
current branch, configured upstream, the commit sets reachable from HEAD and
from the upstream head (for the commit-graph comparison), and the
working-tree entry lists behind the four dirtiness flags. -/
structure RepoState where
  branch : BranchState
  upstream : Option String
  headCommits : Finset Nat
  upstreamCommits : Finset Nat
  stagedFiles : List String
  unstagedFiles : List String
  untrackedFiles : List String
  conflictedFiles : List String
deriving DecidableEq

/-- Modelled from the spec: the answers git gives for a healthy repository —
branch and upstream as configured, ahead = commits reachable from HEAD but
not from the upstream, behind = the converse, and each dirtiness flag set
exactly when the corresponding entry list is nonempty. -/
def queriesOf (r : RepoState) : QueryEnv :=
  { branchQuery := .ok r.branch
    upstreamQuery := .ok r.upstream
    countsQuery := .ok ((r.headCommits \ r.upstreamCommits).card,
                        (r.upstreamCommits \ r.headCommits).card)
    statusQuery := .ok
      { hasStagedChanges := !r.stagedFiles.isEmpty
        hasUnstagedChanges := !r.unstagedFiles.isEmpty
        hasUntrackedFiles := !r.untrackedFiles.isEmpty
        hasConflicts := !r.conflictedFiles.isEmpty } }

/-- Modelled from the spec: probing a healthy repository — run the prober on
the answers derived from the repository's state. -/
def probeRepo (path : String) (r : RepoState) : StatusRecord :=
  probeWithEnv (queriesOf r) path

/-! ### Whole-run model -/

/-- Render a relative path as an absolute path string. -/
def pathString (p : List String) : String :=
  "/" ++ String.intercalate "/" p

/-- Modelled from the spec: outcome of a whole run — a single fatal
configuration error reported before any probing, or the completed ordered
record collection. -/
inductive RunResult where
  | fatalError (reason : ErrorReason)
  | completed (records : List StatusRecord)
deriving DecidableEq, Repr

/-- Number of errors a run result reports: a fatal error is reported once;
a completed run reports one error per error-outcome record. -/
def errorCount : RunResult → Nat
  | .fatalError _ => 1
  | .completed rs =>
    (rs.filter fun r =>
      match r.outcome with
      | .success => false
      | .errorWithReason _ => true).length

/-- Modelled from the spec: the whole run (spec §6) — a single up-front
probe for the git executable runs before the directory walk begins; if git
is absent the run aborts with one fatal error and the walk never starts.
Otherwise the Locator walks the root, each repository is probed, and the
sorted records are returned.  The second component logs the directories the
walk entered. -/
def runOverview (gitAvailable : Bool) (probe : String → StatusRecord)
    (excl : List (List String)) (maxDepth : Option Nat) (root : FSNode) :
    RunResult × List (List String) :=
  if gitAvailable then
    (RunResult.completed (sortRecords
        ((locate excl maxDepth root).map fun p => probe (pathString p))),
     visitedTree excl maxDepth root [] 0)
  else
    (RunResult.fatalError .gitNotFound, [])

namespace SetupPy

/-- The filesystem facts `setup.py` depends on: the content of `README.md`
next to `setup.py` (`none` when the file does not exist) and the result of
`find_packages(where="src")`. -/
structure ScriptContext where
  readmeText : Option String
  srcPackages : List String
deriving DecidableEq, Repr

/-- Error raised by the script: `pathlib.Path.read_text` raises
`FileNotFoundError` when the named file is absent. -/
inductive ScriptError where
  | fileNotFound (missing : String)
deriving DecidableEq, Repr

/-- Keyword arguments of the `setup(...)` call in `setup.py`. -/
structure SetupArgs where
  name : String
  version : String
  description : String
  url : String
  author : String
  authorEmail : String
  packageDir : List (String × String)
  packages : List String
  pythonRequires : String
  projectUrls : List (String × String)
deriving DecidableEq, Repr

/-- The literal `setup(...)` call at the bottom of `setup.py`; `packages`
is the value of `find_packages(where="src")`. -/
def setupCall (ctx : ScriptContext) : SetupArgs :=
  { name := "git-overview"
    version := "0.1.0"
    description := "Git command to pretty display the status of local repositories compared to remotes"
    url := "https://github.com/yimyom/git-overview/"
    author := "David Bellot"
    authorEmail := "david.bellot@gmail.com"
    packageDir := [("", "src")]
    packages := ctx.srcPackages
    pythonRequires := ">=3.9, <4"
    projectUrls :=
      [("Bug Reports", "https://github.com/yimyom/git-overview/issues"),
       ("Source", "https://github.com/yimyom/git-overview/")] }

/-- Top-level execution of `setup.py`: the module first evaluates
`long_description = (here / "README.md").read_text(...)` and only then calls
`setup(...)`.  A missing `README.md` makes `read_text` raise
`FileNotFoundError` before `setup` is reached; otherwise the script returns
normally, having bound the text and invoked `setup`. -/
def runSetupScript (ctx : ScriptContext) :
    Except ScriptError (String × SetupArgs) :=
  match ctx.readmeText with
  | none => .error (.fileNotFound "README.md")
  | some txt => .ok (txt, setupCall ctx)

end SetupPy

/-! ### Theorems -/

lemma recordLE_trans (a b c : StatusRecord) :
    recordLE a b = true → recordLE b c = true → recordLE a c = true := by
  simp only [recordLE, decide_eq_true_eq]
  exact le_trans

lemma recordLE_total (a b : StatusRecord) :
    (recordLE a b || recordLE b a) = true := by
  simp only [recordLE, Bool.or_eq_true, decide_eq_true_eq]
  exact le_total a.path b.path

/-- Two sorted lists of records that are permutations of each other and whose
path keys are duplicate-free are equal: with distinct keys the path order
leaves no freedom. -/
lemma sorted_perm_nodup_path_eq :
    ∀ {l₁ l₂ : List StatusRecord}, l₁.Perm l₂ →
      l₁.Pairwise (fun a b => recordLE a b = true) →
      l₂.Pairwise (fun a b => recordLE a b = true) →
      (l₁.map StatusRecord.path).Nodup → l₁ = l₂ := by
  intro l₁
  induction l₁ with
  | nil =>
    intro l₂ hp _ _ _
    exact (hp.nil_eq).symm ▸ rfl
  | cons a t ih =>
    intro l₂ hp hs₁ hs₂ hnd
    cases l₂ with
    | nil => exact absurd hp.symm.nil_eq (by simp)
    | cons b t₂ =>
      have hba : b = a := by
        have hbmem : b ∈ a :: t := hp.symm.subset (List.mem_cons_self b t₂)
        rcases List.mem_cons.mp hbmem with h | hbt
        · exact h
        · -- b occurs in the tail of l₁, so a.path ≤ b.path …
          have hab : recordLE a b = true := (List.pairwise_cons.mp hs₁).1 b hbt
          have hamem : a ∈ b :: t₂ := hp.subset (List.mem_cons_self a t)
          rcases List.mem_cons.mp hamem with h2 | hat
          · exact h2.symm
          · -- … and a occurs in the tail of l₂, so b.path ≤ a.path.
            have hba2 : recordLE b a = true := (List.pairwise_cons.mp hs₂).1 a hat
            have hpatheq : a.path = b.path :=
              le_antisymm (by simpa [recordLE] using hab)
                (by simpa [recordLE] using hba2)
            have : a.path ∈ t.map StatusRecord.path :=
              hpatheq ▸ List.mem_map_of_mem StatusRecord.path hbt
            exact absurd this ((List.nodup_cons.mp hnd).1)
      subst hba
      have hpt : t.Perm t₂ := hp.cons_inv
      have := ih hpt (List.pairwise_cons.mp hs₁).2 (List.pairwise_cons.mp hs₂).2
        ((List.nodup_cons.mp hnd).2)
      rw [this]

/-- Claim C6: sorting by the path key is deterministic and idempotent.  For
any two arrival orders of the same result set with duplicate-free paths,
`sortRecords` produces the identical ordering, and applying the sort twice
yields the same list as applying it once. -/
theorem C6_sort_deterministic_idempotent (rs rs' : List StatusRecord)
    (hperm : rs.Perm rs') (hnd : (rs.map StatusRecord.path).Nodup) :
    sortRecords rs = sortRecords rs' ∧
      sortRecords (sortRecords rs) = sortRecords rs := by
  have hs₁ := List.sorted_mergeSort recordLE_trans recordLE_total rs
  have hs₂ := List.sorted_mergeSort recordLE_trans recordLE_total rs'
  constructor
  · have hp : (sortRecords rs).Perm (sortRecords rs') :=
      ((rs.mergeSort_perm recordLE).trans hperm).trans
        (rs'.mergeSort_perm recordLE).symm
    have hnd' : ((sortRecords rs).map StatusRecord.path).Nodup :=
      (((rs.mergeSort_perm recordLE).map StatusRecord.path).nodup_iff).mpr hnd
    exact sorted_perm_nodup_path_eq hp hs₁ hs₂ hnd'
  · exact List.mergeSort_of_sorted hs₁

/-- Claim C6 witness: two concrete arrival orders of the same two records
sort to the identical list. -/
theorem C6_sort_deterministic_idempotent_witness :
    sortRecords
        [{ path := "/b", branch := .onBranch "main", upstream := none,
           aheadBehind := none, flags := .clean, outcome := .success },
         { path := "/a", branch := .onBranch "dev", upstream := none,
           aheadBehind := none, flags := .clean, outcome := .success }] =
      sortRecords
        [{ path := "/a", branch := .onBranch "dev", upstream := none,
           aheadBehind := none, flags := .clean, outcome := .success },
         { path := "/b", branch := .onBranch "main", upstream := none,
           aheadBehind := none, flags := .clean, outcome := .success }] :=
  (C6_sort_deterministic_idempotent _ _ (by decide) (by decide)).1

/-- The worker-pool bound is preserved along every scheduler run: a
dispatch fires only below the limit and a completion shrinks the in-flight
set. -/
lemma sched_inFlight_le {limit : Nat} {probe : String → StatusRecord}
    {s₁ s₂ : SchedState} (h : SchedReach limit probe s₁ s₂)
    (h₁ : s₁.inFlight.length ≤ limit) : s₂.inFlight.length ≤ limit := by
  induction h with
  | refl => exact h₁
  | tail hreach hstep ih =>
    cases hstep with
    | dispatch p rest s hp hlt =>
      simpa using hlt
    | complete p s hmem =>
      have he := List.length_erase_of_mem hmem
      simp only [he]
      omega

/-- Along every scheduler run the multiset of pending paths, in-flight
paths and collected record paths is conserved. -/
lemma sched_multiset {limit : Nat} {probe : String → StatusRecord}
    (hpath : ∀ p, (probe p).path = p) {s₁ s₂ : SchedState}
    (h : SchedReach limit probe s₁ s₂) :
    (s₂.pending ++ s₂.inFlight ++ s₂.collected.map StatusRecord.path).Perm
      (s₁.pending ++ s₁.inFlight ++ s₁.collected.map StatusRecord.path) := by
  induction h with
  | refl => exact .refl _
  | tail hreach hstep ih =>
    refine .trans ?_ ih
    cases hstep with
    | dispatch p rest s hp hlt =>
      rw [hp]
      exact List.perm_middle.append_right _
    | complete p s hmem =>
      have hper := List.perm_cons_erase hmem
      simp only [List.map_cons, hpath p]
      exact List.perm_middle.trans
        ((((List.Perm.append_left _ hper).append_right _).trans
          (List.perm_middle.append_right _)).symm)

/-- Every collected record is exactly the probe result for its own path. -/
lemma sched_collected_probe {limit : Nat} {probe : String → StatusRecord}
    (hpath : ∀ p, (probe p).path = p) {s₁ s₂ : SchedState}
    (h : SchedReach limit probe s₁ s₂)
    (hc : ∀ r ∈ s₁.collected, r = probe r.path) :
    ∀ r ∈ s₂.collected, r = probe r.path := by
  induction h with
  | refl => exact hc
  | tail hreach hstep ih =>
    cases hstep with
    | dispatch p rest s hp hlt => exact ih
    | complete p s hmem =>
      intro r hr
      rcases List.mem_cons.mp hr with rfl | hr2
      · rw [hpath p]
      · exact ih r hr2

/-- Claim C9: for every concurrency limit, at no reachable point of the
aggregation are more than `limit` Status Prober invocations in flight
simultaneously. -/
theorem C9_bounded_concurrency (limit : Nat) (probe : String → StatusRecord)
    (paths : List String) (s : SchedState)
    (h : SchedReach limit probe (initState paths) s) :
    s.inFlight.length ≤ limit :=
  sched_inFlight_le h (by simp [initState])

/-- Claim C9 witness: after dispatching the single repository under limit 1,
exactly one probe is in flight, within the bound. -/
theorem C9_bounded_concurrency_witness :
    (SchedState.mk [] ["/repo"] []).inFlight.length ≤ 1 :=
  C9_bounded_concurrency 1 trivialProbe ["/repo"] _
    (SchedReach.tail (SchedReach.refl _)
      (SchedStep.dispatch "/repo" [] _ rfl (by decide)))

/-- Claim C1: a finished aggregation over `paths` under any concurrency
limit holds exactly one record per input path, whatever order completions
occurred in; since the probe is total (errors are data), a failing
repository's record — and every sibling's — is still present. -/
theorem C1_aggregation_yields_all_records (limit : Nat)
    (probe : String → StatusRecord) (paths : List String) (s : SchedState)
    (hpath : ∀ p, (probe p).path = p)
    (h : SchedReach limit probe (initState paths) s)
    (hpend : s.pending = []) (hfl : s.inFlight = []) :
    s.collected.length = paths.length ∧
    (s.collected.map StatusRecord.path).Perm paths ∧
    ∀ p ∈ paths, probe p ∈ s.collected := by
  have hm := sched_multiset hpath h
  rw [hpend, hfl] at hm
  simp only [initState, List.map_nil, List.append_nil, List.nil_append] at hm
  refine ⟨?_, hm, ?_⟩
  · simpa using hm.length_eq
  · intro p hp
    have hp2 : p ∈ s.collected.map StatusRecord.path := hm.mem_iff.mpr hp
    rcases List.mem_map.mp hp2 with ⟨r, hr, hrp⟩
    have hcol : r = probe r.path :=
      sched_collected_probe hpath h (by simp [initState]) r hr
    have : probe p = r := by rw [← hrp, ← hcol]
    exact this ▸ hr

/-- Claim C1 witness: a complete one-repository run under limit 1 collects
exactly the one record, for the one input path. -/
theorem C1_aggregation_yields_all_records_witness :
    (SchedState.mk [] [] [trivialProbe "/repo"]).collected.length
        = ["/repo"].length ∧
    ((SchedState.mk [] [] [trivialProbe "/repo"]).collected.map
        StatusRecord.path).Perm ["/repo"] ∧
    ∀ p ∈ ["/repo"],
      trivialProbe p ∈ (SchedState.mk [] [] [trivialProbe "/repo"]).collected :=
  C1_aggregation_yields_all_records 1 trivialProbe ["/repo"] _
    (fun _ => rfl)
    (SchedReach.tail
      (SchedReach.tail (SchedReach.refl _)
        (SchedStep.dispatch "/repo" [] _ rfl (by decide)))
      (SchedStep.complete "/repo" _ (by decide)))
    rfl rfl

/-- Deduplicating by canonical path yields pairwise-distinct canonical
paths, none of them already seen. -/
lemma dedupGo_map_nodup (canon : String → String) :
    ∀ (l seen : List String),
      ((dedupGo canon seen l).map canon).Nodup ∧
      ∀ c ∈ (dedupGo canon seen l).map canon, c ∉ seen := by
  intro l
  induction l with
  | nil =>
    intro seen
    simp [dedupGo]
  | cons p ps ih =>
    intro seen
    by_cases hmem : canon p ∈ seen
    · simpa [dedupGo, hmem] using ih seen
    · simp only [dedupGo, if_neg hmem, List.map_cons]
      obtain ⟨ihn, ihs⟩ := ih (canon p :: seen)
      refine ⟨List.nodup_cons.mpr ⟨fun hc => ?_, ihn⟩, ?_⟩
      · exact (ihs _ hc) (List.mem_cons_self _ _)
      · intro c hc
        rcases List.mem_cons.mp hc with rfl | hc2
        · exact hmem
        · exact fun hcs => (ihs c hc2) (List.mem_cons_of_mem _ hcs)

/-- Claim C5: after a finished aggregation over the canonically deduplicated
discovered paths, the output has exactly one record per discovered path and
no two records share a canonical path, so symlink cycles cannot produce
duplicates. -/
theorem C5_one_record_per_canonical_path (canon : String → String)
    (raw : List String) (limit : Nat) (probe : String → StatusRecord)
    (s : SchedState) (hpath : ∀ p, (probe p).path = p)
    (h : SchedReach limit probe (initState (canonicalDedup canon raw)) s)
    (hpend : s.pending = []) (hfl : s.inFlight = []) :
    (s.collected.map fun r => canon r.path).Nodup ∧
    (s.collected.map StatusRecord.path).Perm (canonicalDedup canon raw) := by
  have hm := sched_multiset hpath h
  rw [hpend, hfl] at hm
  simp only [initState, List.map_nil, List.append_nil, List.nil_append] at hm
  refine ⟨?_, hm⟩
  have h1 : (s.collected.map fun r => canon r.path)
      = (s.collected.map StatusRecord.path).map canon := by
    simp [List.map_map, Function.comp]
  rw [h1]
  exact (hm.map canon).nodup_iff.mpr (dedupGo_map_nodup canon raw []).1

/-- Claim C5 witness: two raw discoveries of the same repository through a
symlink alias collapse to one discovered path and one collected record with
a unique canonical path. -/
theorem C5_one_record_per_canonical_path_witness :
    ((SchedState.mk [] [] [trivialProbe "/a"]).collected.map
        fun r => (fun p => p) r.path).Nodup ∧
    ((SchedState.mk [] [] [trivialProbe "/a"]).collected.map
        StatusRecord.path).Perm (canonicalDedup (fun p => p) ["/a", "/a"]) :=
  C5_one_record_per_canonical_path (fun p => p) ["/a", "/a"] 1 trivialProbe _
    (fun _ => rfl)
    (SchedReach.tail
      (SchedReach.tail (SchedReach.refl _)
        (SchedStep.dispatch "/a" [] _ rfl (by decide)))
      (SchedStep.complete "/a" _ (by decide)))
    rfl rfl

/-- Lists sharing a prefix continue with the same head component. -/
lemma path_head_eq {here : List String} {a b : String} {r r2 : List String}
    (h : here ++ a :: r = here ++ b :: r2) : a = b := by
  have h2 := List.append_cancel_left h
  simp only [List.cons.injEq] at h2
  exact h2.1

mutual
/-- Every directory the walk enters below a node extends that node's path. -/
lemma visitedTree_extends (excl : List (List String)) (maxDepth : Option Nat) :
    ∀ (t : FSNode) (here : List String) (depth : Nat) (p : List String),
      p ∈ visitedTree excl maxDepth t here depth → ∃ r, p = here ++ r
  | .symlink _ _, _, _, p => by
    intro hp
    simp [visitedTree] at hp
  | .dir _ hasGit children, here, depth, p => by
    intro hp
    simp only [visitedTree, List.mem_cons] at hp
    rcases hp with rfl | hp2
    · exact ⟨[], by simp⟩
    · by_cases hg : hasGit
      · simp [hg] at hp2
      · simp only [if_neg hg] at hp2
        rcases visitedForest_extends excl maxDepth children here depth p hp2
          with ⟨n, r, _, hr⟩
        exact ⟨n :: r, hr⟩

/-- Every directory the walk enters below a forest extends the base path by
the name of one of the forest's nodes. -/
lemma visitedForest_extends (excl : List (List String)) (maxDepth : Option Nat) :
    ∀ (cs : FSForest) (here : List String) (depth : Nat) (p : List String),
      p ∈ visitedForest excl maxDepth cs here depth →
      ∃ n r, n ∈ forestNames cs ∧ p = here ++ n :: r
  | .nil, _, _, p => by
    intro hp
    simp [visitedForest] at hp
  | .cons c cs, here, depth, p => by
    intro hp
    simp only [visitedForest, List.mem_append] at hp
    rcases hp with hp1 | hp2
    · by_cases he : here ++ [c.name] ∈ excl
      · simp [he] at hp1
      · by_cases hd : depthOK maxDepth (depth + 1) = true
        · simp only [if_neg he, hd, if_true] at hp1
          rcases visitedTree_extends excl maxDepth c (here ++ [c.name])
            (depth + 1) p hp1 with ⟨r, hr⟩
          exact ⟨c.name, r, by simp [forestNames], by simpa [List.append_assoc] using hr⟩
        · simp [he, hd] at hp1
    · rcases visitedForest_extends excl maxDepth cs here depth p hp2
        with ⟨n, r, hn, hr⟩
      exact ⟨n, r, by simp [forestNames, hn], hr⟩
end

mutual
/-- Every symlink path below a node extends that node's path. -/
lemma symlinkPathsTree_extends :
    ∀ (t : FSNode) (here : List String) (p : List String),
      p ∈ symlinkPathsTree t here → ∃ r, p = here ++ r
  | .symlink _ _, here, p => by
    intro hp
    simp only [symlinkPathsTree, List.mem_singleton] at hp
    exact ⟨[], by simp [hp]⟩
  | .dir _ _ children, here, p => by
    intro hp
    simp only [symlinkPathsTree] at hp
    rcases symlinkPathsForest_extends children here p hp with ⟨n, r, _, hr⟩
    exact ⟨n :: r, hr⟩

/-- Every symlink path below a forest extends the base path by the name of
one of the forest's nodes. -/
lemma symlinkPathsForest_extends :
    ∀ (cs : FSForest) (here : List String) (p : List String),
      p ∈ symlinkPathsForest cs here →
      ∃ n r, n ∈ forestNames cs ∧ p = here ++ n :: r
  | .nil, _, p => by
    intro hp
    simp [symlinkPathsForest] at hp
  | .cons c cs, here, p => by
    intro hp
    simp only [symlinkPathsForest, List.mem_append] at hp
    rcases hp with hp1 | hp2
    · rcases symlinkPathsTree_extends c (here ++ [c.name]) p hp1 with ⟨r, hr⟩
      exact ⟨c.name, r, by simp [forestNames], by simpa [List.append_assoc] using hr⟩
    · rcases symlinkPathsForest_extends cs here p hp2 with ⟨n, r, hn, hr⟩
      exact ⟨n, r, by simp [forestNames, hn], hr⟩
end

mutual
/-- On a well-formed tree the walk enters no directory twice. -/
lemma visitedTree_nodup (excl : List (List String)) (maxDepth : Option Nat) :
    ∀ (t : FSNode) (here : List String) (depth : Nat), treeWF t = true →
      (visitedTree excl maxDepth t here depth).Nodup
  | .symlink _ _, _, _ => by
    intro _
    simp [visitedTree]
  | .dir _ hasGit children, here, depth => by
    intro hwf
    simp only [treeWF, Bool.and_eq_true, decide_eq_true_eq] at hwf
    obtain ⟨hnames, hfwf⟩ := hwf
    simp only [visitedTree, List.nodup_cons]
    constructor
    · intro hmem
      by_cases hg : hasGit
      · simp [hg] at hmem
      · simp only [if_neg hg] at hmem
        rcases visitedForest_extends excl maxDepth children here depth _ hmem
          with ⟨n, r, _, hr⟩
        have hlen := congrArg List.length hr
        simp only [List.length_append, List.length_cons] at hlen
        omega
    · by_cases hg : hasGit
      · simp [hg]
      · simp only [if_neg hg]
        exact visitedForest_nodup excl maxDepth children here depth hfwf hnames

/-- On a well-formed forest with distinct sibling names the walk enters no
directory twice. -/
lemma visitedForest_nodup (excl : List (List String)) (maxDepth : Option Nat) :
    ∀ (cs : FSForest) (here : List String) (depth : Nat),
      forestWF cs = true → (forestNames cs).Nodup →
      (visitedForest excl maxDepth cs here depth).Nodup
  | .nil, _, _ => by
    intro _ _
    simp [visitedForest]
  | .cons c cs, here, depth => by
    intro hwf hnames
    simp only [forestWF, Bool.and_eq_true] at hwf
    obtain ⟨hcwf, hfwf⟩ := hwf
    simp only [forestNames, List.nodup_cons] at hnames
    obtain ⟨hcn, hnames2⟩ := hnames
    simp only [visitedForest]
    refine List.Nodup.append ?_ ?_ ?_
    · by_cases he : here ++ [c.name] ∈ excl
      · simp [he]
      · by_cases hd : depthOK maxDepth (depth + 1) = true
        · simp only [if_neg he, hd, if_true]
          exact visitedTree_nodup excl maxDepth c _ _ hcwf
        · simp [he, hd]
    · exact visitedForest_nodup excl maxDepth cs here depth hfwf hnames2
    · intro p hp1 hp2
      by_cases he : here ++ [c.name] ∈ excl
      · simp [he] at hp1
      · by_cases hd : depthOK maxDepth (depth + 1) = true
        · simp only [if_neg he, hd, if_true] at hp1
          rcases visitedTree_extends excl maxDepth c (here ++ [c.name])
            (depth + 1) p hp1 with ⟨r, hr⟩
          rcases visitedForest_extends excl maxDepth cs here depth p hp2
            with ⟨n2, r2, hn2, hr2⟩
          have heq2 : here ++ c.name :: r = here ++ n2 :: r2 := by
            rw [List.append_assoc] at hr
            exact hr.symm.trans hr2
          exact hcn (path_head_eq heq2 ▸ hn2)
        · simp [he, hd] at hp1
end

mutual
/-- The repositories the walk yields form a subsequence of the directories
it enters. -/
lemma walkTree_sublist (excl : List (List String)) (maxDepth : Option Nat) :
    ∀ (t : FSNode) (here : List String) (depth : Nat),
      (walkTree excl maxDepth t here depth).Sublist
        (visitedTree excl maxDepth t here depth)
  | .symlink _ _, _, _ => by
    simp [walkTree, visitedTree]
  | .dir _ hasGit children, here, depth => by
    by_cases hg : hasGit
    · simp [walkTree, visitedTree, hg]
    · simp only [walkTree, visitedTree, if_neg hg]
      exact (walkForest_sublist excl maxDepth children here depth).cons _

/-- The same over a forest. -/
lemma walkForest_sublist (excl : List (List String)) (maxDepth : Option Nat) :
    ∀ (cs : FSForest) (here : List String) (depth : Nat),
      (walkForest excl maxDepth cs here depth).Sublist
        (visitedForest excl maxDepth cs here depth)
  | .nil, _, _ => by
    simp [walkForest, visitedForest]
  | .cons c cs, here, depth => by
    simp only [walkForest, visitedForest]
    refine List.Sublist.append ?_ (walkForest_sublist excl maxDepth cs here depth)
    by_cases he : here ++ [c.name] ∈ excl
    · simp [he]
    · by_cases hd : depthOK maxDepth (depth + 1) = true
      · simp only [if_neg he, hd, if_true]
        exact walkTree_sublist excl maxDepth c _ _
      · simp [he, hd]
end

mutual
/-- A git-free tree contributes no repository roots. -/
lemma treeGitFree_empty :
    ∀ (t : FSNode) (here : List String), treeGitFree t = true →
      gitRootsTree t here = []
  | .symlink _ _, _ => by
    intro _
    simp [gitRootsTree]
  | .dir _ hasGit children, here => by
    intro h
    simp only [treeGitFree, Bool.and_eq_true, Bool.not_eq_true'] at h
    simp [gitRootsTree, h.1, forestGitFree_empty children here h.2]

/-- A git-free forest contributes no repository roots. -/
lemma forestGitFree_empty :
    ∀ (cs : FSForest) (here : List String), forestGitFree cs = true →
      gitRootsForest cs here = []
  | .nil, _ => by
    intro _
    simp [gitRootsForest]
  | .cons c cs, here => by
    intro h
    simp only [forestGitFree, Bool.and_eq_true] at h
    simp [gitRootsForest, treeGitFree_empty c _ h.1,
      forestGitFree_empty cs here h.2]
end

mutual
/-- With no exclusions, unbounded depth and non-overlapping repositories,
the walk yields exactly the repository roots of the tree. -/
lemma walkTree_eq_gitRoots :
    ∀ (t : FSNode) (here : List String) (depth : Nat), noNested t = true →
      walkTree [] none t here depth = gitRootsTree t here
  | .symlink _ _, _, _ => by
    intro _
    simp [walkTree, gitRootsTree]
  | .dir _ hasGit children, here, depth => by
    intro h
    by_cases hg : hasGit
    · simp only [noNested, if_pos hg] at h
      simp [walkTree, gitRootsTree, hg, forestGitFree_empty children here h]
    · simp only [noNested, if_neg hg] at h
      simp only [walkTree, gitRootsTree, if_neg hg, Bool.false_eq_true,
        List.nil_append]
      exact walkForest_eq_gitRoots children here depth h

/-- The same over a forest. -/
lemma walkForest_eq_gitRoots :
    ∀ (cs : FSForest) (here : List String) (depth : Nat),
      forestNoNested cs = true →
      walkForest [] none cs here depth = gitRootsForest cs here
  | .nil, _, _ => by
    intro _
    simp [walkForest, gitRootsForest]
  | .cons c cs, here, depth => by
    intro h
    simp only [forestNoNested, Bool.and_eq_true] at h
    simp only [walkForest, gitRootsForest, List.not_mem_nil, if_false,
      depthOK, if_true]
    rw [walkTree_eq_gitRoots c _ _ h.1,
      walkForest_eq_gitRoots cs here depth h.2]
end

mutual
/-- On a well-formed tree, no symlink path is ever entered by the walk. -/
lemma symlink_not_visited_tree (excl : List (List String))
    (maxDepth : Option Nat) :
    ∀ (t : FSNode) (here : List String) (depth : Nat), treeWF t = true →
      ∀ p ∈ symlinkPathsTree t here, p ∉ visitedTree excl maxDepth t here depth
  | .symlink _ _, here, depth => by
    intro _ p _
    simp [visitedTree]
  | .dir _ hasGit children, here, depth => by
    intro hwf p hp hv
    simp only [treeWF, Bool.and_eq_true, decide_eq_true_eq] at hwf
    obtain ⟨hnames, hfwf⟩ := hwf
    simp only [symlinkPathsTree] at hp
    simp only [visitedTree, List.mem_cons] at hv
    rcases hv with rfl | hv2
    · rcases symlinkPathsForest_extends children p _ hp with ⟨n, r, _, hr⟩
      have hlen := congrArg List.length hr
      simp only [List.length_append, List.length_cons] at hlen
      omega
    · by_cases hg : hasGit
      · simp [hg] at hv2
      · simp only [if_neg hg] at hv2
        exact symlink_not_visited_forest excl maxDepth children here depth
          hfwf hnames p hp hv2

/-- On a well-formed forest with distinct sibling names, no symlink path is
ever entered by the walk. -/
lemma symlink_not_visited_forest (excl : List (List String))
    (maxDepth : Option Nat) :
    ∀ (cs : FSForest) (here : List String) (depth : Nat),
      forestWF cs = true → (forestNames cs).Nodup →
      ∀ p ∈ symlinkPathsForest cs here,
        p ∉ visitedForest excl maxDepth cs here depth
  | .nil, _, _ => by
    intro _ _ p hp
    simp [symlinkPathsForest] at hp
  | .cons c cs, here, depth => by
    intro hwf hnames p hp hv
    simp only [forestWF, Bool.and_eq_true] at hwf
    obtain ⟨hcwf, hfwf⟩ := hwf
    simp only [forestNames, List.nodup_cons] at hnames
    obtain ⟨hcn, hnames2⟩ := hnames
    simp only [symlinkPathsForest, List.mem_append] at hp
    simp only [visitedForest, List.mem_append] at hv
    rcases hp with hp1 | hp2 <;> rcases hv with hv1 | hv2
    · by_cases he : here ++ [c.name] ∈ excl
      · simp [he] at hv1
      · by_cases hd : depthOK maxDepth (depth + 1) = true
        · simp only [if_neg he, hd, if_true] at hv1
          exact symlink_not_visited_tree excl maxDepth c (here ++ [c.name])
            (depth + 1) hcwf p hp1 hv1
        · simp [he, hd] at hv1
    · rcases symlinkPathsTree_extends c (here ++ [c.name]) p hp1 with ⟨r, hr⟩
      rcases visitedForest_extends excl maxDepth cs here depth p hv2
        with ⟨n2, r2, hn2, hr2⟩
      have heq2 : here ++ c.name :: r = here ++ n2 :: r2 := by
        rw [List.append_assoc] at hr
        exact hr.symm.trans hr2
      exact hcn (path_head_eq heq2 ▸ hn2)
    · rcases symlinkPathsForest_extends cs here p hp2 with ⟨n2, r2, hn2, hr2⟩
      by_cases he : here ++ [c.name] ∈ excl
      · simp [he] at hv1
      · by_cases hd : depthOK maxDepth (depth + 1) = true
        · simp only [if_neg he, hd, if_true] at hv1
          rcases visitedTree_extends excl maxDepth c (here ++ [c.name])
            (depth + 1) p hv1 with ⟨r, hr⟩
          have heq2 : here ++ c.name :: r = here ++ n2 :: r2 := by
            rw [List.append_assoc] at hr
            exact hr.symm.trans hr2
          exact hcn (path_head_eq heq2 ▸ hn2)
        · simp [he, hd] at hv1
    · exact symlink_not_visited_forest excl maxDepth cs here depth
        hfwf hnames2 p hp2 hv2
end

/-- Claim C2: on a well-formed root whose repositories are non-overlapping,
the Locator yields exactly the repository roots of the tree — the same K
paths, each unique, each visited once. -/
theorem C2_locator_exactly_the_repos (root : FSNode)
    (hwf : treeWF root = true) (hnn : noNested root = true) :
    locate [] none root = gitRootsTree root [] ∧
    (locate [] none root).Nodup := by
  refine ⟨walkTree_eq_gitRoots root [] 0 hnn, ?_⟩
  exact (visitedTree_nodup [] none root [] 0 hwf).sublist
    (walkTree_sublist [] none root [] 0)

/-- Claim C2 witness: on the sample tree the Locator yields exactly its two
repository roots, without duplicates. -/
theorem C2_locator_exactly_the_repos_witness :
    locate [] none sampleTree = gitRootsTree sampleTree [] ∧
    (locate [] none sampleTree).Nodup :=
  C2_locator_exactly_the_repos sampleTree (by decide) (by decide)

/-- Claim C7: the walk — a structurally recursive, hence terminating,
function — never follows a symlinked directory and enters no directory
twice, whatever cycle a symlink's target would create. -/
theorem C7_walk_never_follows_symlinks (excl : List (List String))
    (maxDepth : Option Nat) (root : FSNode) (hwf : treeWF root = true) :
    (visitedTree excl maxDepth root [] 0).Nodup ∧
    ∀ p ∈ symlinkPathsTree root [],
      p ∉ visitedTree excl maxDepth root [] 0 :=
  ⟨visitedTree_nodup excl maxDepth root [] 0 hwf,
   symlink_not_visited_tree excl maxDepth root [] 0 hwf⟩

/-- Claim C7 witness: on the sample tree — whose symlink aims back at the
root — the walk enters each directory once and never enters the symlink. -/
theorem C7_walk_never_follows_symlinks_witness :
    (visitedTree [] none sampleTree [] 0).Nodup ∧
    ∀ p ∈ symlinkPathsTree sampleTree [],
      p ∉ visitedTree [] none sampleTree [] 0 :=
  C7_walk_never_follows_symlinks [] none sampleTree (by decide)

/-- Claim C3: for a clean repository whose upstream head reaches exactly the
commits HEAD reaches, the Status Prober returns ahead = 0, behind = 0, all
four dirtiness flags false, and a success outcome. -/
theorem C3_clean_in_sync_repo (path : String) (r : RepoState) (u : String)
    (hs : r.stagedFiles = []) (hu : r.unstagedFiles = [])
    (ht : r.untrackedFiles = []) (hc : r.conflictedFiles = [])
    (hup : r.upstream = some u) (heq : r.upstreamCommits = r.headCommits) :
    probeRepo path r =
      { path := path, branch := r.branch, upstream := some u,
        aheadBehind := some (0, 0), flags := .clean, outcome := .success } := by
  simp [probeRepo, probeWithEnv, queriesOf, hup, hs, hu, ht, hc, heq,
    WorktreeFlags.clean, Finset.sdiff_self]

/-- Claim C3 witness: a concrete clean repository in sync with its upstream
probes to the all-zero, all-clean success record. -/
theorem C3_clean_in_sync_repo_witness :
    probeRepo "/repo"
        { branch := .onBranch "main", upstream := some "origin/main",
          headCommits := {1, 2}, upstreamCommits := {1, 2},
          stagedFiles := [], unstagedFiles := [], untrackedFiles := [],
          conflictedFiles := [] } =
      { path := "/repo", branch := .onBranch "main",
        upstream := some "origin/main", aheadBehind := some (0, 0),
        flags := .clean, outcome := .success } :=
  C3_clean_in_sync_repo "/repo" _ "origin/main" rfl rfl rfl rfl rfl rfl

/-- Claim C4: whenever a consulted git query times out or exits non-zero,
the Status Prober still returns a record for that path — it is a total
function, so no exception can abort the run — and the record's outcome is
error-with-reason, carrying the classification of the first failing query. -/
theorem C4_query_failure_is_error_data (env : QueryEnv) (path : String)
    (r : ErrorReason) (h : firstFailure env = some r) :
    (probeWithEnv env path).outcome = .errorWithReason r ∧
    (probeWithEnv env path).path = path := by
  obtain ⟨bq, uq, cq, sq⟩ := env
  simp only [firstFailure, probeWithEnv] at *
  cases bq with
  | timedOut => simp_all [errorRecord]
  | exitedNonZero e => simp_all [errorRecord]
  | ok b =>
    cases uq with
    | timedOut => simp_all [errorRecord]
    | exitedNonZero e => simp_all [errorRecord]
    | ok uv =>
      cases uv with
      | none =>
        cases sq with
        | timedOut => simp_all [errorRecord, failureReason]
        | exitedNonZero e => simp_all [errorRecord, failureReason]
        | ok fl => simp_all [failureReason]
      | some up =>
        cases cq with
        | timedOut => simp_all [errorRecord]
        | exitedNonZero e => simp_all [errorRecord]
        | ok ab =>
          cases sq with
          | timedOut => simp_all [errorRecord, failureReason]
          | exitedNonZero e => simp_all [errorRecord, failureReason]
          | ok fl => simp_all [failureReason]

/-- Claim C4 witness: a branch query that times out yields an error record
with reason timeout for the probed path, not an exception. -/
theorem C4_query_failure_is_error_data_witness :
    firstFailure
        { branchQuery := .timedOut, upstreamQuery := .ok none,
          countsQuery := .ok (0, 0), statusQuery := .ok .clean }
        = some .timeout ∧
    (probeWithEnv
        { branchQuery := .timedOut, upstreamQuery := .ok none,
          countsQuery := .ok (0, 0), statusQuery := .ok .clean }
        "/repo").outcome = .errorWithReason .timeout ∧
    (probeWithEnv
        { branchQuery := .timedOut, upstreamQuery := .ok none,
          countsQuery := .ok (0, 0), statusQuery := .ok .clean }
        "/repo").path = "/repo" :=
  ⟨rfl, C4_query_failure_is_error_data _ "/repo" .timeout rfl⟩

/-- Claim C8: when the git executable cannot be located, the run reports
exactly one fatal configuration error — detected by the up-front probe — the
directory walk never starts (no directory is visited), and no per-repository
error is produced. -/
theorem C8_missing_git_single_fatal (probe : String → StatusRecord)
    (excl : List (List String)) (maxDepth : Option Nat) (root : FSNode) :
    runOverview false probe excl maxDepth root
        = (RunResult.fatalError .gitNotFound, []) ∧
    errorCount (runOverview false probe excl maxDepth root).1 = 1 := by
  constructor <;> simp [runOverview, errorCount]

/-- Claim C10: every invocation of `setup.py` reads `README.md` before
calling `setup()`: when `README.md` is absent the script fails with a
file-not-found error and `setup` is never invoked, and when it is present
the script binds its text and invokes `setup` with the literal arguments. -/
theorem C10_setup_reads_readme_first (ctx : SetupPy.ScriptContext) :
    (ctx.readmeText = none →
      SetupPy.runSetupScript ctx = .error (.fileNotFound "README.md")) ∧
    (∀ txt, ctx.readmeText = some txt →
      SetupPy.runSetupScript ctx = .ok (txt, SetupPy.setupCall ctx)) := by
  constructor
  · intro h
    simp [SetupPy.runSetupScript, h]
  · intro txt h
    simp [SetupPy.runSetupScript, h]

/-- Claim C10 witness: with no `README.md` present, the script fails with
file-not-found and `setup` is not called. -/
theorem C10_setup_reads_readme_first_witness :
    SetupPy.runSetupScript { readmeText := none, srcPackages := [] } =
      .error (.fileNotFound "README.md") :=
  (C10_setup_reads_readme_first { readmeText := none, srcPackages := [] }).1 rfl

end GitOverview
